import Mathlib

/-!
Verification development for the svn2git front end (`src/main.cpp`):
the identity-map and revision-filter loaders, the resume-point resolver
(the `retry:` loop in `main`), and the export session loop.

External collaborators (`Repository`, `Svn`) are not part of the source
under study; they are modelled abstractly from their documented contracts.
All machine integers are modelled as `Int` (no overflow is exercised by
the control flow under study); `INT_MAX` is the literal 2147483647.
-/

namespace Svn2Git

/-- Ascii whitespace as recognised by `QByteArray::trimmed`:
space, tab, line feed, vertical tab, form feed, carriage return. -/
def isAsciiSpace (c : Char) : Bool :=
  c = ' ' || c = '\t' || c = '\n' || c = Char.ofNat 11 || c = Char.ofNat 12 || c = '\r'

/-- Remove leading ascii whitespace. -/
def trimLeft (l : List Char) : List Char := l.dropWhile isAsciiSpace

/-- Remove trailing ascii whitespace. -/
def trimRight (l : List Char) : List Char := (l.reverse.dropWhile isAsciiSpace).reverse

/-- Model of `QByteArray::trimmed`: strip ascii whitespace from both ends. -/
def trim (l : List Char) : List Char := trimRight (trimLeft l)

/-- Model of `QByteArray::indexOf(char)`: index of the first occurrence. -/
def indexOfChar (c : Char) : List Char → Option Nat
  | [] => none
  | x :: xs => if x = c then some 0 else (indexOfChar c xs).map (· + 1)

/-- Model of `QByteArray::indexOf(const char *)`: index of the first
occurrence of a (non-empty) pattern as a contiguous substring. -/
def indexOfSub (pat : List Char) : List Char → Option Nat
  | [] => if pat.isEmpty then some 0 else none
  | x :: xs =>
    if pat.isPrefixOf (x :: xs) then some 0 else (indexOfSub pat xs).map (· + 1)

/-- One iteration of the `while` loop of `loadIdentityMapFile`
(src/main.cpp lines 45-65): strip a `#` comment, trim, find the first
space (no space: line ignored), widen the separator when the first space
starts a literal " = ", and return `(login, realname)`. -/
def parseIdentityLine (line0 : List Char) : Option (List Char × List Char) :=
  let line1 := match indexOfChar '#' line0 with
    | some p => line0.take p
    | none => line0
  let line := trim line1
  match indexOfChar ' ' line with
  | none => none
  | some space =>
    let rightspace := if indexOfSub [' ', '=', ' '] line = some space then space + 2 else space
    some (line.take space, trim (line.drop rightspace))

/-- Spec reading of the same line format: split the (comment-stripped,
trimmed) line at the first space into `login` and `rest`; when the
original separator at that first space was " = ", strip the "= " from
`rest`; store the trimmed remainder. -/
def specIdentityLine (line0 : List Char) : Option (List Char × List Char) :=
  let line1 := match indexOfChar '#' line0 with
    | some p => line0.take p
    | none => line0
  let line := trim line1
  match indexOfChar ' ' line with
  | none => none
  | some space =>
    let rest := line.drop (space + 1)
    let rest2 := if [' ', '=', ' '].isPrefixOf (line.drop space) then rest.drop 2 else rest
    some (line.take space, trim rest2)

/-- Insert into the association list modelling the `QHash`, replacing an
existing binding for the same key (`QHash::insert` semantics). -/
def hashInsert (k v : List Char) (m : List (List Char × List Char)) :
    List (List Char × List Char) :=
  (k, v) :: m.filter (fun p => !(p.1 = k : Bool))

/-- Model of `loadIdentityMapFile` over the file's list of lines. -/
def loadIdentityMapFile (lines : List (List Char)) : List (List Char × List Char) :=
  lines.foldl
    (fun m line =>
      match parseIdentityLine line with
      | none => m
      | some (login, realname) => hashInsert login realname m)
    []

/-- Lookup in the association list modelling the `QHash`. -/
def hashLookup (k : List Char) (m : List (List Char × List Char)) :
    Option (List Char) :=
  (m.find? (fun p => p.1 = k)).map Prod.snd

/-- Model of `QByteArray::toInt` restricted to what `loadRevisionsFile`
feeds it (a trimmed line): an optional sign followed by at least one
decimal digit, and nothing else; any other input fails. -/
def batToInt (l : List Char) : Option Int :=
  let (sign, digits) := match l with
    | '-' :: rest => ((-1 : Int), rest)
    | '+' :: rest => ((1 : Int), rest)
    | rest => ((1 : Int), rest)
  if digits.isEmpty then none
  else if digits.all (fun c => c.isDigit) then
    some (sign * (digits.foldl (fun a c => a * 10 + ((c.toNat - '0'.toNat : Nat) : Int)) 0))
  else none

/-- Model of `loadRevisionsFile` over the optional file content
(`none` models a missing or unopenable file, which yields the empty
set): each line is trimmed and parsed; parse failures are skipped;
parsed values accumulate as a set (duplicates collapse). -/
def loadRevisionsFile : Option (List (List Char)) → List Int
  | none => []
  | some lines =>
    lines.foldl
      (fun acc line =>
        match batToInt (trim line) with
        | none => acc
        | some r => if r ∈ acc then acc else acc ++ [r])
      []

/-- Modelled from the spec: a destination Repository writer, an external
collaborator whose code is not under src/.  Only the interface used by
`main` matters here: `setupIncremental(int &cutoff)` observes the shared
cutoff, may lower it, and returns this repository's `nextRevision`; it is
modelled as a pure function from the incoming cutoff to the pair
`(nextRevision, updated cutoff)`.  `restoreLog` and `finalizeTags` are
effect-only and are tracked as events by the orchestrator model. -/
structure Repository where
  setupIncremental : Int → Int × Int

/-- Outcome of one pass of the `foreach (Rules::Repository rule, ...)`
loop in `main` (src/main.cpp lines 160-190).  `restores` records, in
order, the indices of the repositories on which `restoreLog` was invoked
during this pass. -/
inductive PassResult where
  | fail (restores : List Nat)
  | retry (restores : List Nat) (newCutoff : Int)
  | ok (restores : List Nat) (minRev cutoff : Int)
deriving DecidableEq, Repr

/-- Restore events of a pass, whatever its outcome. -/
def restoresOf : PassResult → List Nat
  | .fail rs => rs
  | .retry rs _ => rs
  | .ok rs _ _ => rs

/-- One pass of the repository loop in `main`.  A `none` entry models
`makeRepository` returning null (immediate `EXIT_FAILURE`).  For a
constructed repository: call `setupIncremental`, invoke `restoreLog`
when the possibly-lowered cutoff is below `resumeFrom` and the returned
`nextRevision` equals that cutoff, abandon the pass (`goto retry`) when
the cutoff has dropped below the accumulated `minRev`, and otherwise
fold `nextRevision` into `minRev` and continue. -/
def runPass (resumeFrom : Int) : List (Option Repository) → Nat → Int → Int → PassResult
  | [], _, cutoff, minRev => .ok [] minRev cutoff
  | none :: _, _, _, _ => .fail []
  | some repo :: rest, idx, cutoff, minRev =>
    let next := (repo.setupIncremental cutoff).1
    let cutoff2 := (repo.setupIncremental cutoff).2
    let restores := if cutoff2 < resumeFrom ∧ next = cutoff2 then [idx] else []
    if cutoff2 < minRev then .retry restores cutoff2
    else
      match runPass resumeFrom rest (idx + 1) cutoff2 (max minRev next) with
      | .fail rs => .fail (restores ++ rs)
      | .retry rs c => .retry (restores ++ rs) c
      | .ok rs m c => .ok (restores ++ rs) m c

/-- The `nextRevision` values returned by the successive
`setupIncremental` calls of a pass started at `cutoff`, with the
(possibly lowered) cutoff threaded from call to call exactly as the
by-reference `int &cutoff` is in the source. -/
def passNexts : List (Option Repository) → Int → List Int
  | [], _ => []
  | none :: _, _ => []
  | some repo :: rest, cutoff =>
    (repo.setupIncremental cutoff).1 :: passNexts rest (repo.setupIncremental cutoff).2

/-- Trace of the repositories actually processed by a pass: for each one,
its index, the `nextRevision` it returned and the cutoff value right
after its `setupIncremental` call.  A pass stops at a failed
`makeRepository` or at the repository that triggers `goto retry`
(that repository itself is still traced, since its `setupIncremental`
and `restoreLog` effects happen before the jump). -/
def passTrace (resumeFrom : Int) : List (Option Repository) → Nat → Int → Int → List (Nat × Int × Int)
  | [], _, _, _ => []
  | none :: _, _, _, _ => []
  | some repo :: rest, idx, cutoff, minRev =>
    let next := (repo.setupIncremental cutoff).1
    let cutoff2 := (repo.setupIncremental cutoff).2
    (idx, next, cutoff2) ::
      (if cutoff2 < minRev then []
       else passTrace resumeFrom rest (idx + 1) cutoff2 (max minRev next))

/-- Outcome of the whole resolution phase. -/
inductive ResolveResult where
  | fail (restores : List Nat)
  | ok (restores : List Nat) (minRev cutoff : Int)
deriving DecidableEq, Repr

/-- Prepend the restore events of an abandoned pass to a later outcome. -/
def addRestores (rs : List Nat) : ResolveResult → ResolveResult
  | .fail rs2 => .fail (rs ++ rs2)
  | .ok rs2 m c => .ok (rs ++ rs2) m c

/-- The resolution loop of `main` (label `retry:`), with explicit fuel
bounding the number of passes; `none` models running out of fuel, i.e.
the source's unbounded `goto retry` loop not having terminated within
that many passes. -/
def resolve (resumeFrom : Int) (repos : List (Option Repository)) : Nat → Int → Option ResolveResult
  | 0, _ => none
  | fuel + 1, cutoff =>
    match runPass resumeFrom repos 0 cutoff 1 with
    | .fail rs => some (.fail rs)
    | .ok rs m c => some (.ok rs m c)
    | .retry rs c2 => (resolve resumeFrom repos fuel c2).map (addRestores rs)

/-- The contract C1 assumes of `setupIncremental`: it only observes or
lowers the shared cutoff, never raises it. -/
def ObserveOrLower (repos : List (Option Repository)) : Prop :=
  ∀ o : Repository, some o ∈ repos → ∀ c : Int, (o.setupIncremental c).2 ≤ c

/-- Strengthened contract under which the resolver provably terminates:
besides never raising the cutoff, `setupIncremental` keeps a cutoff that
was at least 1 at least 1, and returns a `nextRevision` no larger than
the updated cutoff. -/
def BoundedSetup (repos : List (Option Repository)) : Prop :=
  ∀ o : Repository, some o ∈ repos → ∀ c : Int,
    (o.setupIncremental c).2 ≤ c ∧
      (1 ≤ c → 1 ≤ (o.setupIncremental c).2 ∧ (o.setupIncremental c).1 ≤ (o.setupIncremental c).2)

/-- Termination of the resolution loop from a given initial cutoff:
some finite number of passes suffices. -/
def ResolverTerminates (resumeFrom : Int) (repos : List (Option Repository)) (cutoff : Int) : Prop :=
  ∃ fuel : Nat, (resolve resumeFrom repos fuel cutoff).isSome

/-- The list `lo, lo + 1, ..., lo + n - 1`. -/
def intRangeAux (lo : Int) : Nat → List Int
  | 0 => []
  | n + 1 => lo :: intRangeAux (lo + 1) n

/-- Closed integer interval `[lo, hi]` as the ascending list the
`for (int i = min_rev; i <= max_rev; ++i)` loop enumerates. -/
def intRange (lo hi : Int) : List Int := intRangeAux lo (hi + 1 - lo).toNat

/-- The export loop of `main` (src/main.cpp lines 216-229) over the list
of candidate revisions.  Returns the `exportRevision` calls made (each
with its outcome), the revisions for which only the progress dot was
printed (filter miss), and the `errors` flag.  The first failed export
ends the loop at once. -/
def exportLoop (filterActive : Bool) (filter : List Int) (exportOk : Int → Bool) :
    List Int → List (Int × Bool) × List Int × Bool
  | [] => ([], [], false)
  | i :: rest =>
    if filterActive ∧ i ∉ filter then
      let r := exportLoop filterActive filter exportOk rest
      (r.1, i :: r.2.1, r.2.2)
    else if exportOk i then
      let r := exportLoop filterActive filter exportOk rest
      ((i, true) :: r.1, r.2.1, r.2.2)
    else ([(i, false)], [], true)

/-- Specification-side view of the export calls: the candidates that
survive the filter, each paired with its outcome, cut right after the
first failure. -/
def cutAtFailure (exportOk : Int → Bool) : List Int → List (Int × Bool)
  | [] => []
  | i :: rest =>
    if exportOk i then (i, true) :: cutAtFailure exportOk rest else [(i, false)]

/-- The candidates the loop actually submits to `exportRevision`:
all of them when the filter is inactive, otherwise those in the filter. -/
def selectRevs (filterActive : Bool) (filter : List Int) (l : List Int) : List Int :=
  if filterActive then l.filter (fun i => decide (i ∈ filter)) else l

/-- Run configuration: the already-parsed command-line values and the
behaviour of the external `Svn` reader.  `revisionsFile` is the optional
content of the `--revisions-file` file (`none`: absent or unopenable);
`exportOk r` is the outcome of `svn.exportRevision(r)`. -/
structure Config where
  resumeFrom : Int
  maxRevArg : Int
  youngest : Int
  revisionsFile : Option (List (List Char))
  exportOk : Int → Bool

/-- The value `INT_MAX` of the build platform. -/
def intMax : Int := 2147483647

/-- Initial cutoff: `resume_from ? resume_from : INT_MAX`. -/
def initialCutoff (cfg : Config) : Int :=
  if cfg.resumeFrom = 0 then intMax else cfg.resumeFrom

/-- Observable outcome of a run of `main` past argument parsing.
`configFail`: `makeRepository` returned null, `return EXIT_FAILURE`.
`resumeError`: the resume-inconsistency check fired, `return EXIT_FAILURE`.
`finished`: the export loop ran; the constructor carries the restore
events, whether the skipped-revisions diagnostic was printed, the export
calls with outcomes, the filter-miss progress dots, the indices of the
repositories whose `finalizeTags` ran, and the `errors` flag. -/
inductive RunResult where
  | configFail (restores : List Nat)
  | resumeError (restores : List Nat) (resumeFrom cutoff : Int)
  | finished (restores : List Nat) (skipDiag : Bool) (exports : List (Int × Bool))
      (dots : List Int) (finalized : List Nat) (errors : Bool)
deriving DecidableEq, Repr

/-- The `exportRevision` calls a run made. -/
def exportsOf : RunResult → List (Int × Bool)
  | .finished _ _ es _ _ _ => es
  | _ => []

/-- The repositories a run invoked `finalizeTags` on. -/
def finalizedOf : RunResult → List Nat
  | .finished _ _ _ _ fin _ => fin
  | _ => []

/-- Process exit status of a run outcome (`EXIT_FAILURE = 1`). -/
def exitCode : RunResult → Int
  | .configFail _ => 1
  | .resumeError _ _ _ => 1
  | .finished _ _ _ _ _ errors => if errors then 1 else 0

/-- Model of `main` after argument parsing (src/main.cpp lines 157-236):
resolution loop, resume-inconsistency check, skipped-revisions
diagnostic, resume-point override of `min_rev`, `max_rev` defaulting to
`youngestRevision()`, revision-filter loading, export loop, and the
final `finalizeTags` sweep over the repository hash (one entry per
configured rule; rule names are modelled by their index, so the hash
holds exactly one repository per index). -/
def mainRun (cfg : Config) (repos : List (Option Repository)) (fuel : Nat) :
    Option RunResult :=
  match resolve cfg.resumeFrom repos fuel (initialCutoff cfg) with
  | none => none
  | some (.fail rs) => some (.configFail rs)
  | some (.ok rs minRev cutoff) =>
    if cutoff < cfg.resumeFrom then
      some (.resumeError rs cfg.resumeFrom cutoff)
    else
      let skipDiag : Bool := minRev < cfg.resumeFrom
      let lo := if cfg.resumeFrom = 0 then minRev else cfg.resumeFrom
      let hi := if cfg.maxRevArg < 1 then cfg.youngest else cfg.maxRevArg
      let filter := loadRevisionsFile cfg.revisionsFile
      let r := exportLoop (!filter.isEmpty) filter cfg.exportOk (intRange lo hi)
      some (.finished rs skipDiag r.1 r.2.1 (List.range repos.length) r.2.2)

/-- The closed revision interval the export loop iterates for a run
whose resolver produced `minRev = m`: the lower bound is `m` overridden
by an explicit resume point, the upper bound is `--max-rev` defaulting
to `youngestRevision()` when absent or below 1. -/
def revisionInterval (cfg : Config) (m : Int) : List Int :=
  intRange (if cfg.resumeFrom = 0 then m else cfg.resumeFrom)
    (if cfg.maxRevArg < 1 then cfg.youngest else cfg.maxRevArg)

/-! Concrete instances used to ground the theorems below. -/

/-- A repository whose persisted state never goes past revision 1:
`setupIncremental` clamps the cutoff to at most 1 and reports
`nextRevision = 1`. -/
def exRepoGood : Repository := ⟨fun c => (1, min c 1)⟩

/-- A repository that reports `nextRevision = 10` and leaves the cutoff
untouched. -/
def cexRepoA : Repository := ⟨fun c => (10, c)⟩

/-- A repository that reports `nextRevision = 1` and leaves the cutoff
untouched. -/
def cexRepoB : Repository := ⟨fun c => (1, c)⟩

/-- Two repositories that satisfy the observe-or-lower contract yet make
the resolution loop of `main` cycle forever from cutoff 4. -/
def cexRepos : List (Option Repository) := [some cexRepoA, some cexRepoB]

/-- A repository that clamps the cutoff to at most 3 and reports
`nextRevision = 3`. -/
def exRepoLower : Repository := ⟨fun c => (3, min c 3)⟩

/-- A repository that reports `nextRevision = 3` and never touches the
cutoff. -/
def exRepoNext3 : Repository := ⟨fun c => (3, c)⟩

/-- A repository whose log ends exactly at revision 4: it lowers the
cutoff to 4 and reports `nextRevision = 4`. -/
def exRepoFour : Repository := ⟨fun _ => (4, 4)⟩

/-- Configuration with a two-element revision filter over `[1, 5]`. -/
def exCfgFilter : Config :=
  ⟨0, 5, 9, some [String.toList "2", String.toList "4"], fun _ => true⟩

/-- Configuration with no filter whose export of revision 3 fails. -/
def exCfgFail : Config := ⟨0, 5, 9, none, fun i => decide (i ≠ 3)⟩

/-- Configuration whose revisions file contains only unparsable lines. -/
def exCfgBadLines : Config :=
  ⟨0, 5, 9, some [String.toList "abc", String.toList ""], fun _ => true⟩

/-- Configuration requesting `--resume-from 7` with `--max-rev 9`. -/
def exCfgResume : Config := ⟨7, 9, 0, none, fun _ => true⟩

/-- Configuration requesting `--resume-from 5`. -/
def exCfgResume5 : Config := ⟨5, 9, 0, none, fun _ => true⟩

/-! Theorems.  First, facts about the line-level search primitives used
by the identity-map loader. -/

theorem isAsciiSpace_space : isAsciiSpace ' ' = true := rfl

theorem trim_cons_space (t : List Char) : trim (' ' :: t) = trim t := by
  simp [trim, trimLeft, List.dropWhile_cons, isAsciiSpace_space]

theorem indexOfChar_drop {c : Char} :
    ∀ {l : List Char} {i : Nat}, indexOfChar c l = some i →
      l.drop i = c :: l.drop (i + 1) := by
  intro l
  induction l with
  | nil => intro i h; simp [indexOfChar] at h
  | cons x xs ih =>
    intro i h
    by_cases hx : x = c
    · simp [indexOfChar, hx] at h
      subst h
      simp [hx]
    · simp [indexOfChar, hx] at h
      obtain ⟨i0, h0, rfl⟩ := h
      simpa using ih h0

theorem indexOfSub_isPrefixOf {pat : List Char} :
    ∀ {l : List Char} {i : Nat}, indexOfSub pat l = some i →
      pat.isPrefixOf (l.drop i) := by
  intro l
  induction l with
  | nil =>
    intro i h
    simp only [indexOfSub] at h
    split at h
    · next he =>
      cases h
      simpa [List.isEmpty_iff] using he
    · cases h
  | cons x xs ih =>
    intro i h
    simp only [indexOfSub] at h
    split at h
    · next hp => cases h; simpa using hp
    · next hp =>
      simp only [Option.map_eq_some'] at h
      obtain ⟨i0, h0, rfl⟩ := h
      simpa using ih h0

theorem indexOfSub_exists_of_isPrefixOf {pat : List Char} :
    ∀ {l : List Char} {j : Nat}, pat.isPrefixOf (l.drop j) →
      ∃ i ≤ j, indexOfSub pat l = some i := by
  intro l
  induction l with
  | nil =>
    intro j h
    simp only [List.drop_nil] at h
    refine ⟨0, Nat.zero_le j, ?_⟩
    simp only [indexOfSub]
    have : pat = [] := by
      cases pat with
      | nil => rfl
      | cons a t => simp [List.isPrefixOf] at h
    simp [this]
  | cons x xs ih =>
    intro j h
    by_cases hp : pat.isPrefixOf (x :: xs)
    · exact ⟨0, Nat.zero_le j, by simp [indexOfSub, hp]⟩
    · cases j with
      | zero => simp only [List.drop_zero] at h; exact absurd h hp
      | succ j0 =>
        simp only [List.drop_succ_cons] at h
        obtain ⟨i0, hle, hi0⟩ := ih h
        exact ⟨i0 + 1, Nat.succ_le_succ hle, by simp [indexOfSub, hp, hi0]⟩

theorem indexOfChar_le_of_isPrefixOf {c : Char} {p : List Char} :
    ∀ {l : List Char} {i j : Nat}, indexOfChar c l = some i →
      (c :: p).isPrefixOf (l.drop j) → i ≤ j := by
  intro l
  induction l with
  | nil => intro i j h; simp [indexOfChar] at h
  | cons x xs ih =>
    intro i j h hpre
    by_cases hx : x = c
    · simp [indexOfChar, hx] at h
      omega
    · simp [indexOfChar, hx] at h
      obtain ⟨i0, h0, rfl⟩ := h
      cases j with
      | zero =>
        simp only [List.drop_zero, List.isPrefixOf, List.isPrefixOf_cons₂] at hpre
        simp [List.isPrefixOf] at hpre
        exact absurd hpre.1.symm hx
      | succ j0 =>
        simp only [List.drop_succ_cons] at hpre
        exact Nat.succ_le_succ (ih h0 hpre)

theorem indexOfSub_sep_iff {l : List Char} {space : Nat}
    (h : indexOfChar ' ' l = some space) :
    indexOfSub [' ', '=', ' '] l = some space ↔
      [' ', '=', ' '].isPrefixOf (l.drop space) := by
  constructor
  · exact indexOfSub_isPrefixOf
  · intro hp
    obtain ⟨i, hle, hi⟩ := indexOfSub_exists_of_isPrefixOf hp
    have hge : space ≤ i := indexOfChar_le_of_isPrefixOf h (indexOfSub_isPrefixOf hi)
    have : i = space := Nat.le_antisymm hle hge
    rwa [this] at hi

theorem parse_eq_spec_of_space {line : List Char} {space : Nat}
    (h : indexOfChar ' ' line = some space) :
    trim (line.drop
        (if indexOfSub [' ', '=', ' '] line = some space then space + 2 else space)) =
      trim (if [' ', '=', ' '].isPrefixOf (line.drop space)
        then (line.drop (space + 1)).drop 2 else line.drop (space + 1)) := by
  by_cases hp : [' ', '=', ' '].isPrefixOf (line.drop space)
  · have hsub : indexOfSub [' ', '=', ' '] line = some space :=
      (indexOfSub_sep_iff h).mpr hp
    obtain ⟨t, ht⟩ := List.isPrefixOf_iff_prefix.mp hp
    have h2 : line.drop (space + 2) = ' ' :: t := by
      have hd : line.drop (space + 2) = (line.drop space).drop 2 := by
        rw [List.drop_drop]
      rw [hd, ← ht]
      rfl
    have h3 : (line.drop (space + 1)).drop 2 = t := by
      rw [List.drop_drop]
      have hd : line.drop (space + 1 + 2) = (line.drop space).drop 3 := by
        rw [List.drop_drop]
      rw [hd, ← ht]
      rfl
    rw [if_pos hsub, if_pos hp, h2, h3, trim_cons_space]
  · have hsub : ¬ indexOfSub [' ', '=', ' '] line = some space := by
      intro hc
      exact hp ((indexOfSub_sep_iff h).mp hc)
    have h1 : line.drop space = ' ' :: line.drop (space + 1) := indexOfChar_drop h
    rw [if_neg hsub, if_neg hp, h1, trim_cons_space]

/-- Claim C8: `loadIdentityMapFile` processes each line by stripping a
`#` comment suffix, trimming, and splitting at the first space into
`login` and rest; when the original separator at that first space was
" = " the "= " is stripped from the rest; the trimmed remainder is the
stored identity; lines without a space are ignored.  Formally: the
per-line code of src/main.cpp lines 45-65 coincides with the
specification-side parse on every line, and the loader maps the two
example lines exactly as the spec states and drops a space-free line. -/
theorem identityMap_line_spec :
    (∀ line : List Char, parseIdentityLine line = specIdentityLine line) ∧
      hashLookup (String.toList "alice")
          (loadIdentityMapFile [String.toList "alice Alice A <a@x>"]) =
        some (String.toList "Alice A <a@x>") ∧
      hashLookup (String.toList "bob")
          (loadIdentityMapFile [String.toList "bob = Bob B <b@x>"]) =
        some (String.toList "Bob B <b@x>") ∧
      loadIdentityMapFile [String.toList "nospace"] = [] := by
  refine ⟨?_, by decide, by decide, by decide⟩
  intro line0
  simp only [parseIdentityLine, specIdentityLine]
  cases h : indexOfChar ' '
      (trim (match indexOfChar '#' line0 with
        | some p => line0.take p
        | none => line0)) with
  | none => rfl
  | some space =>
    dsimp only
    rw [parse_eq_spec_of_space h]

/-! Resolver theorems. -/

theorem restoresOf_seq (pre : List Nat) (r : PassResult) :
    restoresOf (match r with
      | .fail rs => .fail (pre ++ rs)
      | .retry rs c => .retry (pre ++ rs) c
      | .ok rs m c => .ok (pre ++ rs) m c) = pre ++ restoresOf r := by
  cases r <;> rfl

theorem mem_restores_iff (resumeFrom : Int) :
    ∀ (repos : List (Option Repository)) (idx : Nat) (cutoff minRev : Int) (i : Nat),
      i ∈ restoresOf (runPass resumeFrom repos idx cutoff minRev) ↔
        ∃ n c2, (i, n, c2) ∈ passTrace resumeFrom repos idx cutoff minRev ∧
          c2 < resumeFrom ∧ n = c2 := by
  intro repos
  induction repos with
  | nil =>
    intro idx cutoff minRev i
    simp [runPass, passTrace, restoresOf]
  | cons hd rest ih =>
    intro idx cutoff minRev i
    cases hd with
    | none => simp [runPass, passTrace, restoresOf]
    | some repo =>
      simp only [runPass, passTrace]
      rcases hs : repo.setupIncremental cutoff with ⟨n0, c0⟩
      dsimp only
      by_cases hretry : c0 < minRev
      · rw [if_pos hretry, if_pos hretry]
        by_cases hcond : c0 < resumeFrom ∧ n0 = c0
        · rw [if_pos hcond]
          simp only [restoresOf, List.mem_singleton, Prod.mk.injEq]
          constructor
          · intro hi
            exact ⟨n0, c0, ⟨hi, rfl, rfl⟩, hcond.1, hcond.2⟩
          · rintro ⟨n, c2, ⟨hi, _, _⟩, _⟩
            exact hi
        · rw [if_neg hcond]
          simp only [restoresOf, List.not_mem_nil, false_iff, List.mem_singleton,
            Prod.mk.injEq, not_exists]
          rintro n c2 ⟨⟨hi, hn, hc2⟩, hlt, hnc⟩
          exact hcond ⟨hc2 ▸ hlt, hn ▸ hc2 ▸ hnc⟩
      · rw [if_neg hretry, if_neg hretry]
        rw [restoresOf_seq, List.mem_append, ih]
        by_cases hcond : c0 < resumeFrom ∧ n0 = c0
        · rw [if_pos hcond]
          simp only [List.mem_singleton, List.mem_cons, List.not_mem_nil, or_false,
            Prod.mk.injEq]
          constructor
          · rintro (hi | ⟨n, c2, hmem, hrest⟩)
            · exact ⟨n0, c0, Or.inl ⟨hi, rfl, rfl⟩, hcond.1, hcond.2⟩
            · exact ⟨n, c2, Or.inr hmem, hrest⟩
          · rintro ⟨n, c2, (⟨hi, _, _⟩ | hmem), hrest⟩
            · exact Or.inl hi
            · exact Or.inr ⟨n, c2, hmem, hrest⟩
        · rw [if_neg hcond]
          simp only [List.not_mem_nil, false_or, List.mem_cons, Prod.mk.injEq]
          constructor
          · rintro ⟨n, c2, hmem, hrest⟩
            exact ⟨n, c2, Or.inr hmem, hrest⟩
          · rintro ⟨n, c2, (⟨hi, hn, hc2⟩ | hmem), hrest⟩
            · exact absurd ⟨hc2 ▸ hrest.1, hn ▸ hc2 ▸ hrest.2⟩ hcond
            · exact ⟨n, c2, hmem, hrest⟩

/-- Claim C6: during a resolution pass, `restoreLog` is invoked on a
repository if and only if, right after that repository's
`setupIncremental` call returned, the possibly just-lowered cutoff is
strictly below the requested resume point and the returned
`nextRevision` equals that cutoff (src/main.cpp lines 166-177). -/
theorem restoreLog_iff (resumeFrom : Int) (repos : List (Option Repository))
    (cutoff : Int) (i : Nat) :
    i ∈ restoresOf (runPass resumeFrom repos 0 cutoff 1) ↔
      ∃ n c2, (i, n, c2) ∈ passTrace resumeFrom repos 0 cutoff 1 ∧
        c2 < resumeFrom ∧ n = c2 :=
  mem_restores_iff resumeFrom repos 0 cutoff 1 i

theorem le_foldl_max : ∀ (l : List Int) (b : Int), b ≤ l.foldl max b := by
  intro l
  induction l with
  | nil => intro b; exact le_refl b
  | cons x xs ih =>
    intro b
    exact le_trans (le_max_left b x) (ih (max b x))

theorem runPass_ok_minRev (resumeFrom : Int) :
    ∀ (repos : List (Option Repository)) (idx : Nat) (cutoff minRev : Int)
      (rs : List Nat) (m c : Int),
      runPass resumeFrom repos idx cutoff minRev = .ok rs m c →
        m = (passNexts repos cutoff).foldl max minRev := by
  intro repos
  induction repos with
  | nil =>
    intro idx cutoff minRev rs m c h
    simp only [runPass, PassResult.ok.injEq] at h
    simp [passNexts, h.2.1.symm]
  | cons hd rest ih =>
    intro idx cutoff minRev rs m c h
    cases hd with
    | none => simp [runPass] at h
    | some repo =>
      simp only [runPass] at h
      rcases hs : repo.setupIncremental cutoff with ⟨n0, c0⟩
      rw [hs] at h
      dsimp only at h
      by_cases hretry : c0 < minRev
      · rw [if_pos hretry] at h
        cases h
      · rw [if_neg hretry] at h
        rcases hrec : runPass resumeFrom rest (idx + 1) c0 (max minRev n0) with
          _ | _ | ⟨rs1, m1, c1⟩
        · rw [hrec] at h; cases h
        · rw [hrec] at h; cases h
        · rw [hrec] at h
          cases h
          have hres := ih (idx + 1) c0 (max minRev n0) rs1 _ _ hrec
          simp only [passNexts, hs, List.foldl_cons]
          exact hres

/-- Claim C2: when a resolution pass completes without triggering a
restart, the resulting `minRev` is the maximum, over the repositories
scanned in that final pass, of the `nextRevision` each
`setupIncremental` call returned, with 1 as the initial lower bound
(src/main.cpp lines 159-190): formally, a completed resolution is
produced by a final pass from some cutoff `c0`, and its `minRev` folds
`max` over that pass's `nextRevision` list starting from 1, hence with
no repositories (or all `nextRevision` below 1) it is 1. -/
theorem resolve_minRev_eq_max (resumeFrom : Int) (repos : List (Option Repository))
    (fuel : Nat) (cutoff : Int) (rs : List Nat) (m c : Int)
    (h : resolve resumeFrom repos fuel cutoff = some (.ok rs m c)) :
    ∃ c0 rs0, runPass resumeFrom repos 0 c0 1 = .ok rs0 m c ∧
      m = (passNexts repos c0).foldl max 1 ∧ 1 ≤ m := by
  induction fuel generalizing cutoff rs with
  | zero => simp [resolve] at h
  | succ fuel ih =>
    simp only [resolve] at h
    rcases hp : runPass resumeFrom repos 0 cutoff 1 with _ | ⟨rs1, c2⟩ | ⟨rs1, m1, c1⟩
    · rw [hp] at h; cases h
    · rw [hp] at h
      simp only [Option.map_eq_some'] at h
      obtain ⟨r0, hr0, haddr⟩ := h
      cases r0 with
      | fail rs2 => simp [addRestores] at haddr
      | ok rs2 m2 c3 =>
        simp only [addRestores, ResolveResult.ok.injEq] at haddr
        obtain ⟨hrs, hm, hc⟩ := haddr
        subst hm hc
        exact ih c2 rs2 hr0
    · rw [hp] at h
      simp only [Option.some.injEq, ResolveResult.ok.injEq] at h
      obtain ⟨hrs, hm, hc⟩ := h
      subst hm hc
      have hmax := runPass_ok_minRev resumeFrom repos 0 cutoff 1 rs1 _ _ hp
      exact ⟨cutoff, rs1, hp, hmax, hmax ▸ le_foldl_max (passNexts repos cutoff) 1⟩

theorem runPass_retry_bound (resumeFrom : Int) :
    ∀ (repos : List (Option Repository)),
      (∀ o : Repository, some o ∈ repos → ∀ c : Int,
        (o.setupIncremental c).2 ≤ c ∧
          (1 ≤ c → 1 ≤ (o.setupIncremental c).2 ∧
            (o.setupIncremental c).1 ≤ (o.setupIncremental c).2)) →
      ∀ (idx : Nat) (cutoff minRev : Int) (rs : List Nat) (c2 : Int),
        1 ≤ minRev → minRev ≤ cutoff →
        runPass resumeFrom repos idx cutoff minRev = .retry rs c2 →
          1 ≤ c2 ∧ c2 < cutoff := by
  intro repos
  induction repos with
  | nil =>
    intro _ idx cutoff minRev rs c2 _ _ h
    simp [runPass] at h
  | cons hd rest ih =>
    intro hcontract idx cutoff minRev rs c2 hmin1 hminc h
    cases hd with
    | none => simp [runPass] at h
    | some repo =>
      have hr := hcontract repo (by simp) cutoff
      simp only [runPass] at h
      rcases hs : repo.setupIncremental cutoff with ⟨n0, c0⟩
      rw [hs] at hr
      rw [hs] at h
      dsimp only at h
      dsimp only at hr
      have h1c : (1 : Int) ≤ cutoff := le_trans hmin1 hminc
      have hc0 : c0 ≤ cutoff := hr.1
      have h1c0 : 1 ≤ c0 := (hr.2 h1c).1
      have hn0 : n0 ≤ c0 := (hr.2 h1c).2
      by_cases hretry : c0 < minRev
      · rw [if_pos hretry] at h
        cases h
        exact ⟨h1c0, lt_of_lt_of_le hretry hminc⟩
      · rw [if_neg hretry] at h
        rcases hrec : runPass resumeFrom rest (idx + 1) c0 (max minRev n0) with
          _ | ⟨rs1, c3⟩ | _
        · rw [hrec] at h; cases h
        · rw [hrec] at h
          cases h
          have hrest : ∀ o : Repository, some o ∈ rest → ∀ c : Int,
              (o.setupIncremental c).2 ≤ c ∧
                (1 ≤ c → 1 ≤ (o.setupIncremental c).2 ∧
                  (o.setupIncremental c).1 ≤ (o.setupIncremental c).2) :=
            fun o ho => hcontract o (List.mem_cons_of_mem _ ho)
          have hb := ih hrest (idx + 1) c0 (max minRev n0) rs1 _
            (le_trans hmin1 (le_max_left minRev n0))
            (max_le (not_lt.mp hretry) hn0) hrec
          exact ⟨hb.1, lt_of_lt_of_le hb.2 hc0⟩
        · rw [hrec] at h; cases h

theorem resolve_total (resumeFrom : Int) (repos : List (Option Repository))
    (hcontract : BoundedSetup repos) :
    ∀ (fuel : Nat) (cutoff : Int), 1 ≤ cutoff → cutoff ≤ (fuel : Int) →
      (resolve resumeFrom repos fuel cutoff).isSome := by
  intro fuel
  induction fuel with
  | zero =>
    intro cutoff h1 hle
    exact absurd (le_trans h1 hle) (by norm_num)
  | succ fuel ih =>
    intro cutoff h1 hle
    simp only [resolve]
    rcases hp : runPass resumeFrom repos 0 cutoff 1 with _ | ⟨rs, c2⟩ | _
    · simp
    · have hb := runPass_retry_bound resumeFrom repos hcontract 0 cutoff 1 rs c2
        (le_refl 1) h1 hp
      have hc2 : c2 ≤ (fuel : Int) := by
        have : c2 + 1 ≤ cutoff := Int.add_one_le_iff.mpr hb.2
        push_cast at hle ⊢
        omega
      have := ih c2 hb.1 hc2
      simpa [Option.isSome_map] using this
    · simp

/-- Claim C1 (amended): whenever the shared cutoff drops strictly below
the `minRev` accumulated from repositories already scanned in the
current pass, the pass is abandoned and resolution restarts from the
first repository with the new, strictly smaller cutoff; and the resolver
terminates for any initial cutoff at least 1 — with at most `cutoff`
passes — provided `setupIncremental` not only never raises the cutoff
but also never lowers a cutoff that was at least 1 below 1 and returns a
`nextRevision` at most the updated cutoff.  (Under the weaker
observe-or-lower contract alone, termination fails; see the
counterexample below.) -/
theorem resolver_restart_and_termination (resumeFrom : Int)
    (repos : List (Option Repository)) (cutoff : Int)
    (hcontract : BoundedSetup repos) (h1 : 1 ≤ cutoff) :
    (∀ (rs : List Nat) (c2 : Int) (fuel : Nat),
        runPass resumeFrom repos 0 cutoff 1 = .retry rs c2 →
          1 ≤ c2 ∧ c2 < cutoff ∧
            resolve resumeFrom repos (fuel + 1) cutoff =
              (resolve resumeFrom repos fuel c2).map (addRestores rs)) ∧
      (resolve resumeFrom repos cutoff.toNat cutoff).isSome := by
  constructor
  · intro rs c2 fuel hp
    have hb := runPass_retry_bound resumeFrom repos hcontract 0 cutoff 1 rs c2
      (le_refl 1) h1 hp
    exact ⟨hb.1, hb.2, by simp [resolve, hp]⟩
  · exact resolve_total resumeFrom repos hcontract cutoff.toNat cutoff h1
      (Int.self_le_toNat cutoff)

theorem cexRepos_stuck : ∀ fuel : Nat, resolve 4 cexRepos fuel 4 = none := by
  intro fuel
  induction fuel with
  | zero => rfl
  | succ fuel ih =>
    have hp : runPass 4 cexRepos 0 4 1 = .retry [] 4 := by decide
    simp [resolve, hp, ih]

/-- Claim C1 as stated is refuted: the two concrete repositories of
`cexRepos` satisfy the observe-or-lower contract (neither ever raises
the cutoff), yet from initial cutoff 4 (requested resume point 4) the
resolution loop of `main` restarts forever with cutoff stuck at 4 — the
cutoff does not strictly decrease on restarts, and the resolver does not
terminate. -/
theorem resolver_nontermination_counterexample :
    ObserveOrLower cexRepos ∧ ¬ ResolverTerminates 4 cexRepos 4 := by
  constructor
  · intro o ho c
    simp only [cexRepos, List.mem_cons, List.mem_singleton, List.not_mem_nil,
      or_false, Option.some.injEq] at ho
    rcases ho with rfl | rfl
    · exact le_refl c
    · exact le_refl c
  · rintro ⟨fuel, hs⟩
    rw [cexRepos_stuck fuel] at hs
    simp at hs

/-! Export-session theorems. -/

theorem exportLoop_fst (filterActive : Bool) (filter : List Int) (exportOk : Int → Bool) :
    ∀ l : List Int, (exportLoop filterActive filter exportOk l).1 =
      cutAtFailure exportOk (selectRevs filterActive filter l) := by
  intro l
  induction l with
  | nil => cases filterActive <;> simp [exportLoop, selectRevs, cutAtFailure]
  | cons i rest ih =>
    simp only [exportLoop]
    by_cases hskip : filterActive = true ∧ i ∉ filter
    · rw [if_pos hskip]
      have hsel : selectRevs filterActive filter (i :: rest) =
          selectRevs filterActive filter rest := by
        simp [selectRevs, hskip.1, hskip.2]
      rw [hsel]
      simpa using ih
    · rw [if_neg hskip]
      have hsel : selectRevs filterActive filter (i :: rest) =
          i :: selectRevs filterActive filter rest := by
        cases hf : filterActive with
        | false => simp [selectRevs]
        | true =>
          have hmem : i ∈ filter := by
            by_contra hni
            exact hskip ⟨hf, hni⟩
          simp [selectRevs, hmem]
      rw [hsel]
      by_cases hok : exportOk i = true
      · simp only [if_pos hok, cutAtFailure, hok, if_pos]
        simpa using ih
      · simp only [Bool.not_eq_true] at hok
        simp [hok, cutAtFailure]

theorem exportLoop_errors (filterActive : Bool) (filter : List Int) (exportOk : Int → Bool) :
    ∀ l : List Int, (exportLoop filterActive filter exportOk l).2.2 =
      (selectRevs filterActive filter l).any (fun i => !exportOk i) := by
  intro l
  induction l with
  | nil => cases filterActive <;> simp [exportLoop, selectRevs]
  | cons i rest ih =>
    simp only [exportLoop]
    by_cases hskip : filterActive = true ∧ i ∉ filter
    · rw [if_pos hskip]
      have hsel : selectRevs filterActive filter (i :: rest) =
          selectRevs filterActive filter rest := by
        simp [selectRevs, hskip.1, hskip.2]
      rw [hsel]
      simpa using ih
    · rw [if_neg hskip]
      have hsel : selectRevs filterActive filter (i :: rest) =
          i :: selectRevs filterActive filter rest := by
        cases hf : filterActive with
        | false => simp [selectRevs]
        | true =>
          have hmem : i ∈ filter := by
            by_contra hni
            exact hskip ⟨hf, hni⟩
          simp [selectRevs, hmem]
      rw [hsel]
      by_cases hok : exportOk i = true
      · simp only [if_pos hok, List.any_cons, hok, Bool.not_true, Bool.false_or]
        simpa using ih
      · simp only [Bool.not_eq_true] at hok
        simp [hok]

theorem exportLoop_allOk (filterActive : Bool) (filter : List Int) (exportOk : Int → Bool) :
    ∀ l : List Int, (∀ i ∈ l, exportOk i = true) →
      exportLoop filterActive filter exportOk l =
        ((selectRevs filterActive filter l).map (fun i => (i, true)),
          (if filterActive then l.filter (fun i => !decide (i ∈ filter)) else []),
          false) := by
  intro l
  induction l with
  | nil => cases filterActive <;> simp [exportLoop, selectRevs]
  | cons i rest ih =>
    intro hall
    have hi := hall i (List.mem_cons_self i rest)
    have hr := ih (fun j hj => hall j (List.mem_cons_of_mem i hj))
    simp only [exportLoop]
    by_cases hskip : filterActive = true ∧ i ∉ filter
    · rw [if_pos hskip]
      rw [hr]
      simp [selectRevs, hskip.1, hskip.2]
    · rw [if_neg hskip]
      rw [if_pos hi, hr]
      cases hf : filterActive with
      | false => simp [selectRevs]
      | true =>
        have hmem : i ∈ filter := by
          by_contra hni
          exact hskip ⟨hf, hni⟩
        simp [selectRevs, hmem]

theorem cutAtFailure_false_last (exportOk : Int → Bool) :
    ∀ (l : List Int) (pre : List (Int × Bool)) (i : Int) (post : List (Int × Bool)),
      cutAtFailure exportOk l = pre ++ (i, false) :: post → post = [] := by
  intro l
  induction l with
  | nil =>
    intro pre i post h
    simp [cutAtFailure] at h
  | cons j rest ih =>
    intro pre i post h
    simp only [cutAtFailure] at h
    by_cases hok : exportOk j = true
    · rw [if_pos hok] at h
      cases pre with
      | nil =>
        simp only [List.nil_append, List.cons.injEq, Prod.mk.injEq] at h
        exact absurd h.1.2 (by simp)
      | cons p pre2 =>
        simp only [List.cons_append, List.cons.injEq] at h
        exact ih pre2 i post h.2
    · rw [if_neg hok] at h
      cases pre with
      | nil =>
        simp only [List.nil_append, List.cons.injEq] at h
        exact h.2.symm
      | cons p pre2 =>
        simp only [List.cons_append, List.cons.injEq] at h
        exact absurd h.2.symm (List.append_ne_nil_of_right_ne_nil pre2 (by simp))

theorem mainRun_finished_eq (cfg : Config) (repos : List (Option Repository))
    (fuel : Nat) (rs : List Nat) (m c : Int)
    (hres : resolve cfg.resumeFrom repos fuel (initialCutoff cfg) = some (.ok rs m c))
    (hok : ¬ c < cfg.resumeFrom) :
    mainRun cfg repos fuel = some (.finished rs (decide (m < cfg.resumeFrom))
      (exportLoop (!(loadRevisionsFile cfg.revisionsFile).isEmpty)
        (loadRevisionsFile cfg.revisionsFile) cfg.exportOk (revisionInterval cfg m)).1
      (exportLoop (!(loadRevisionsFile cfg.revisionsFile).isEmpty)
        (loadRevisionsFile cfg.revisionsFile) cfg.exportOk (revisionInterval cfg m)).2.1
      (List.range repos.length)
      (exportLoop (!(loadRevisionsFile cfg.revisionsFile).isEmpty)
        (loadRevisionsFile cfg.revisionsFile) cfg.exportOk (revisionInterval cfg m)).2.2) := by
  simp only [mainRun, revisionInterval]
  rw [hres]
  dsimp only
  rw [if_neg hok]

theorem mainRun_inv (cfg : Config) (repos : List (Option Repository)) (fuel : Nat)
    (r : RunResult) (h : mainRun cfg repos fuel = some r) :
    (∃ rs, resolve cfg.resumeFrom repos fuel (initialCutoff cfg) = some (.fail rs) ∧
        r = .configFail rs) ∨
      (∃ rs m c, resolve cfg.resumeFrom repos fuel (initialCutoff cfg) = some (.ok rs m c) ∧
        c < cfg.resumeFrom ∧ r = .resumeError rs cfg.resumeFrom c) ∨
      (∃ rs m c, resolve cfg.resumeFrom repos fuel (initialCutoff cfg) = some (.ok rs m c) ∧
        ¬ c < cfg.resumeFrom ∧
        r = .finished rs (decide (m < cfg.resumeFrom))
          (exportLoop (!(loadRevisionsFile cfg.revisionsFile).isEmpty)
            (loadRevisionsFile cfg.revisionsFile) cfg.exportOk (revisionInterval cfg m)).1
          (exportLoop (!(loadRevisionsFile cfg.revisionsFile).isEmpty)
            (loadRevisionsFile cfg.revisionsFile) cfg.exportOk (revisionInterval cfg m)).2.1
          (List.range repos.length)
          (exportLoop (!(loadRevisionsFile cfg.revisionsFile).isEmpty)
            (loadRevisionsFile cfg.revisionsFile) cfg.exportOk (revisionInterval cfg m)).2.2) := by
  rcases hr : resolve cfg.resumeFrom repos fuel (initialCutoff cfg) with _ | r0
  · rw [mainRun, hr] at h
    cases h
  · cases r0 with
    | fail rs =>
      left
      refine ⟨rs, rfl, ?_⟩
      rw [mainRun, hr] at h
      dsimp only at h
      cases h
      rfl
    | ok rs m c =>
      rw [mainRun, hr] at h
      dsimp only at h
      by_cases hc : c < cfg.resumeFrom
      · right; left
        rw [if_pos hc] at h
        cases h
        exact ⟨rs, m, c, rfl, hc, rfl⟩
      · right; right
        rw [if_neg hc] at h
        cases h
        exact ⟨rs, m, c, rfl, hc, by simp [revisionInterval]⟩

/-- Claim C3: if, after resolution completes, the requested resume point
is strictly greater than the final cutoff, the run ends with the
resume-inconsistency error carrying both values, the exit status is
non-zero, and no `exportRevision` call (and no finalization) happens
(src/main.cpp lines 192-196). -/
theorem resume_inconsistency_no_export (cfg : Config) (repos : List (Option Repository))
    (fuel : Nat) (rs : List Nat) (m c : Int)
    (hres : resolve cfg.resumeFrom repos fuel (initialCutoff cfg) = some (.ok rs m c))
    (hlt : c < cfg.resumeFrom) :
    mainRun cfg repos fuel = some (.resumeError rs cfg.resumeFrom c) ∧
      exportsOf (.resumeError rs cfg.resumeFrom c) = [] ∧
      finalizedOf (.resumeError rs cfg.resumeFrom c) = [] ∧
      exitCode (.resumeError rs cfg.resumeFrom c) ≠ 0 := by
  refine ⟨?_, rfl, rfl, by simp [exitCode]⟩
  simp only [mainRun]
  rw [hres]
  dsimp only
  rw [if_pos hlt]

theorem cutAtFailure_exists_false (exportOk : Int → Bool) :
    ∀ l : List Int, (∃ p ∈ cutAtFailure exportOk l, p.2 = false) ↔
      l.any (fun i => !exportOk i) = true := by
  intro l
  induction l with
  | nil => simp [cutAtFailure]
  | cons j rest ih =>
    simp only [cutAtFailure]
    by_cases hok : exportOk j = true
    · rw [if_pos hok]
      simp only [List.mem_cons, List.any_cons, hok, Bool.not_true, Bool.false_or]
      constructor
      · rintro ⟨p, hp | hp, hfalse⟩
        · rw [hp] at hfalse
          simp at hfalse
        · exact ih.mp ⟨p, hp, hfalse⟩
      · intro hany
        obtain ⟨p, hp, hfalse⟩ := ih.mpr hany
        exact ⟨p, Or.inr hp, hfalse⟩
    · simp only [Bool.not_eq_true] at hok
      rw [if_neg (by simp [hok])]
      simp [hok]

/-- Claim C4: in the export loop, the first failed `exportRevision` call
is the last export call of the run (no later revision is attempted);
however the loop ends, `finalizeTags` runs exactly once for each
configured repository; and the exit status is non-zero exactly when an
export failure occurred (src/main.cpp lines 225-236). -/
theorem export_failfast_finalize_exit (cfg : Config) (repos : List (Option Repository))
    (fuel : Nat) (rs : List Nat) (sd : Bool) (es : List (Int × Bool)) (ds : List Int)
    (fin : List Nat) (err : Bool)
    (hrun : mainRun cfg repos fuel = some (.finished rs sd es ds fin err)) :
    (∀ (pre : List (Int × Bool)) (i : Int) (post : List (Int × Bool)),
        es = pre ++ (i, false) :: post → post = []) ∧
      fin = List.range repos.length ∧ fin.Nodup ∧
      (∀ k, k ∈ fin ↔ k < repos.length) ∧
      (err = true ↔ ∃ p ∈ es, p.2 = false) ∧
      (exitCode (.finished rs sd es ds fin err) ≠ 0 ↔ err = true) := by
  rcases mainRun_inv cfg repos fuel _ hrun with ⟨rs1, _, habs⟩ | ⟨rs1, m, c, _, _, habs⟩ |
    ⟨rs1, m, c, hres, hc, heq⟩
  · cases habs
  · cases habs
  · injection heq with h1 h2 h3 h4 h5 h6
    subst h1 h2 h3 h4 h5 h6
    refine ⟨?_, rfl, List.nodup_range _, fun k => List.mem_range, ?_, ?_⟩
    · intro pre i post hsplit
      rw [exportLoop_fst] at hsplit
      exact cutAtFailure_false_last cfg.exportOk _ pre i post hsplit
    · rw [exportLoop_fst, exportLoop_errors]
      exact (cutAtFailure_exists_false cfg.exportOk _).symm
    · cases herr : (exportLoop (!(loadRevisionsFile cfg.revisionsFile).isEmpty)
          (loadRevisionsFile cfg.revisionsFile) cfg.exportOk (revisionInterval cfg m)).2.2 <;>
        simp [exitCode, herr]

theorem intRangeAux_mem : ∀ (n : Nat) (lo i : Int),
    i ∈ intRangeAux lo n ↔ lo ≤ i ∧ i < lo + n := by
  intro n
  induction n with
  | zero =>
    intro lo i
    simp only [intRangeAux, List.not_mem_nil, false_iff, not_and, not_lt]
    intro h
    omega
  | succ n ih =>
    intro lo i
    simp only [intRangeAux, List.mem_cons, ih]
    constructor
    · rintro (rfl | ⟨h1, h2⟩) <;> constructor <;> omega
    · rintro ⟨h1, h2⟩
      rcases eq_or_ne i lo with rfl | hne
      · exact Or.inl rfl
      · refine Or.inr ⟨by omega, by omega⟩

theorem intRangeAux_pairwise : ∀ (n : Nat) (lo : Int),
    List.Pairwise (· < ·) (intRangeAux lo n) := by
  intro n
  induction n with
  | zero => intro lo; simp [intRangeAux]
  | succ n ih =>
    intro lo
    simp only [intRangeAux, List.pairwise_cons]
    refine ⟨?_, ih (lo + 1)⟩
    intro b hb
    have := (intRangeAux_mem n (lo + 1) b).mp hb
    omega

theorem intRange_pairwise (lo hi : Int) : List.Pairwise (· < ·) (intRange lo hi) :=
  intRangeAux_pairwise _ _

theorem intRange_mem (lo hi i : Int) : i ∈ intRange lo hi ↔ lo ≤ i ∧ i ≤ hi := by
  unfold intRange
  rw [intRangeAux_mem]
  omega

/-- Claim C5: with a non-empty revision filter, `exportRevision` is
invoked exactly for the revisions of `[minRev, maxRev]` that are in the
filter, in strictly ascending order (assuming the invoked exports
succeed, so the loop is not cut short); every candidate absent from the
filter gets only the progress signal — it appears in the dot list and in
no export call (src/main.cpp lines 213-229). -/
theorem filter_export_exact (cfg : Config) (repos : List (Option Repository))
    (fuel : Nat) (rs : List Nat) (m c : Int)
    (hres : resolve cfg.resumeFrom repos fuel (initialCutoff cfg) = some (.ok rs m c))
    (hok : ¬ c < cfg.resumeFrom)
    (hfa : loadRevisionsFile cfg.revisionsFile ≠ [])
    (hsucc : ∀ r : Int, cfg.exportOk r = true) :
    mainRun cfg repos fuel = some (.finished rs (decide (m < cfg.resumeFrom))
        (((revisionInterval cfg m).filter
            (fun i => decide (i ∈ loadRevisionsFile cfg.revisionsFile))).map
          (fun i => (i, true)))
        ((revisionInterval cfg m).filter
          (fun i => !decide (i ∈ loadRevisionsFile cfg.revisionsFile)))
        (List.range repos.length) false) ∧
      List.Pairwise (fun p q : Int × Bool => p.1 < q.1)
        (((revisionInterval cfg m).filter
            (fun i => decide (i ∈ loadRevisionsFile cfg.revisionsFile))).map
          (fun i => (i, true))) ∧
      (∀ i : Int, i ∈ revisionInterval cfg m →
        i ∉ loadRevisionsFile cfg.revisionsFile →
        (∀ b : Bool, (i, b) ∉ ((revisionInterval cfg m).filter
            (fun i => decide (i ∈ loadRevisionsFile cfg.revisionsFile))).map
          (fun i => (i, true))) ∧
          i ∈ (revisionInterval cfg m).filter
            (fun i => !decide (i ∈ loadRevisionsFile cfg.revisionsFile))) := by
  have hfab : (!(loadRevisionsFile cfg.revisionsFile).isEmpty) = true := by
    simp [List.isEmpty_iff, hfa]
  have hloop := exportLoop_allOk (!(loadRevisionsFile cfg.revisionsFile).isEmpty)
    (loadRevisionsFile cfg.revisionsFile) cfg.exportOk (revisionInterval cfg m)
    (fun i _ => hsucc i)
  rw [hfab] at hloop
  refine ⟨?_, ?_, ?_⟩
  · have hmain := mainRun_finished_eq cfg repos fuel rs m c hres hok
    rw [hfab] at hmain
    rw [hmain, hloop]
    simp [selectRevs]
  · refine List.Pairwise.map _ ?_ (List.Pairwise.filter _ (intRange_pairwise _ _))
    intro a b hab
    exact hab
  · intro i hi hni
    constructor
    · intro b hmem
      simp only [List.mem_map, List.mem_filter, decide_eq_true_eq, Prod.mk.injEq] at hmem
      obtain ⟨j, ⟨hj1, hj2⟩, hj3, hj4⟩ := hmem
      exact hni (hj3 ▸ hj2)
    · simp only [List.mem_filter, Bool.not_eq_true', decide_eq_false_iff_not]
      exact ⟨hi, hni⟩

/-- Claim C7: with an explicit resume point requested and resolution
succeeding (final cutoff not below it), the export interval's lower
bound is the requested resume point, overriding the resolver's
`minRev`; when `minRev` is below the resume point the skipped-revisions
diagnostic is emitted (src/main.cpp lines 198-202). -/
theorem resume_point_overrides_minRev (cfg : Config) (repos : List (Option Repository))
    (fuel : Nat) (rs : List Nat) (m c : Int)
    (hrf : cfg.resumeFrom ≠ 0)
    (hres : resolve cfg.resumeFrom repos fuel (initialCutoff cfg) = some (.ok rs m c))
    (hok : ¬ c < cfg.resumeFrom) :
    mainRun cfg repos fuel = some (.finished rs (decide (m < cfg.resumeFrom))
      (exportLoop (!(loadRevisionsFile cfg.revisionsFile).isEmpty)
        (loadRevisionsFile cfg.revisionsFile) cfg.exportOk
        (intRange cfg.resumeFrom
          (if cfg.maxRevArg < 1 then cfg.youngest else cfg.maxRevArg))).1
      (exportLoop (!(loadRevisionsFile cfg.revisionsFile).isEmpty)
        (loadRevisionsFile cfg.revisionsFile) cfg.exportOk
        (intRange cfg.resumeFrom
          (if cfg.maxRevArg < 1 then cfg.youngest else cfg.maxRevArg))).2.1
      (List.range repos.length)
      (exportLoop (!(loadRevisionsFile cfg.revisionsFile).isEmpty)
        (loadRevisionsFile cfg.revisionsFile) cfg.exportOk
        (intRange cfg.resumeFrom
          (if cfg.maxRevArg < 1 then cfg.youngest else cfg.maxRevArg))).2.2) ∧
      (m < cfg.resumeFrom → decide (m < cfg.resumeFrom) = true) := by
  have hmain := mainRun_finished_eq cfg repos fuel rs m c hres hok
  rw [show revisionInterval cfg m = intRange cfg.resumeFrom
      (if cfg.maxRevArg < 1 then cfg.youngest else cfg.maxRevArg) by
    simp [revisionInterval, hrf]] at hmain
  exact ⟨hmain, fun h => by simp [h]⟩

theorem loadRevisionsFile_all_bad {lines : List (List Char)}
    (hbad : ∀ l ∈ lines, batToInt (trim l) = none) :
    loadRevisionsFile (some lines) = [] := by
  have haux : ∀ (ls : List (List Char)), (∀ l ∈ ls, batToInt (trim l) = none) →
      ∀ acc : List Int,
        ls.foldl (fun acc line =>
          match batToInt (trim line) with
          | none => acc
          | some r => if r ∈ acc then acc else acc ++ [r]) acc = acc := by
    intro ls
    induction ls with
    | nil => intro _ acc; rfl
    | cons l rest ih =>
      intro hb acc
      simp only [List.foldl_cons, hb l (List.mem_cons_self l rest)]
      exact ih (fun j hj => hb j (List.mem_cons_of_mem l hj)) acc
  exact haux lines hbad []

/-- Claim C9: when the revision filter loads as the empty set — no
revisions file, an unreadable file, an empty file, or every line failing
to parse — filtering is disabled and the export loop submits every
revision of `[minRev, maxRev]` to `exportRevision` (here with all
exports succeeding, so the whole interval is exported rather than zero
revisions), with no skip signals (src/main.cpp lines 71-96, 213-224). -/
theorem empty_filter_disables_filtering (cfg : Config) (repos : List (Option Repository))
    (fuel : Nat) (rs : List Nat) (m c : Int)
    (hres : resolve cfg.resumeFrom repos fuel (initialCutoff cfg) = some (.ok rs m c))
    (hok : ¬ c < cfg.resumeFrom)
    (hfile : cfg.revisionsFile = none ∨
      ∃ lines, cfg.revisionsFile = some lines ∧ ∀ l ∈ lines, batToInt (trim l) = none)
    (hsucc : ∀ r : Int, cfg.exportOk r = true) :
    loadRevisionsFile cfg.revisionsFile = [] ∧
      mainRun cfg repos fuel = some (.finished rs (decide (m < cfg.resumeFrom))
        ((revisionInterval cfg m).map (fun i => (i, true))) []
        (List.range repos.length) false) := by
  have hempty : loadRevisionsFile cfg.revisionsFile = [] := by
    rcases hfile with hnone | ⟨lines, hsome, hbad⟩
    · rw [hnone]
      rfl
    · rw [hsome]
      exact loadRevisionsFile_all_bad hbad
  refine ⟨hempty, ?_⟩
  have hmain := mainRun_finished_eq cfg repos fuel rs m c hres hok
  rw [hempty] at hmain
  have hloop := exportLoop_allOk false [] cfg.exportOk (revisionInterval cfg m)
    (fun i _ => hsucc i)
  simp only [List.isEmpty_nil, Bool.not_true] at hmain
  rw [hloop] at hmain
  simpa [selectRevs] using hmain

/-- Claim C10: a run that aborts during resolution — a repository writer
that cannot be constructed, or the resume-inconsistency check firing —
performs no `finalizeTags` call (and no export); `finalizeTags` happens
only in runs that reach the export loop, and there it covers exactly the
configured repositories. -/
theorem no_finalize_on_resolution_abort (cfg : Config) (repos : List (Option Repository))
    (fuel : Nat) :
    (∀ rs : List Nat, mainRun cfg repos fuel = some (.configFail rs) →
        finalizedOf (.configFail rs) = [] ∧ exportsOf (.configFail rs) = []) ∧
      (∀ (rs : List Nat) (a b : Int), mainRun cfg repos fuel = some (.resumeError rs a b) →
        finalizedOf (.resumeError rs a b) = [] ∧ exportsOf (.resumeError rs a b) = []) ∧
      (∀ r : RunResult, mainRun cfg repos fuel = some r → finalizedOf r ≠ [] →
        ∃ rs sd es ds err, r = .finished rs sd es ds (List.range repos.length) err) := by
  refine ⟨fun rs _ => ⟨rfl, rfl⟩, fun rs a b _ => ⟨rfl, rfl⟩, ?_⟩
  intro r hr hfin
  rcases mainRun_inv cfg repos fuel r hr with ⟨rs1, _, rfl⟩ | ⟨rs1, m, c, _, _, rfl⟩ |
    ⟨rs1, m, c, _, _, rfl⟩
  · exact absurd rfl hfin
  · exact absurd rfl hfin
  · exact ⟨rs1, _, _, _, _, rfl⟩

/-! Witnesses: each theorem above with hypotheses applied at a concrete
input, with every hypothesis discharged there. -/

theorem resolver_restart_and_termination_witness :
    BoundedSetup [some exRepoGood] ∧ (1 : Int) ≤ 3 ∧
      (resolve 0 [some exRepoGood] (3 : Int).toNat 3).isSome :=
  ⟨by
      intro o ho c
      simp only [List.mem_singleton, Option.some.injEq] at ho
      subst ho
      exact ⟨min_le_left c 1, fun hc => ⟨le_min hc le_rfl, le_min hc le_rfl⟩⟩,
    by decide,
    (resolver_restart_and_termination 0 [some exRepoGood] 3
      (by
        intro o ho c
        simp only [List.mem_singleton, Option.some.injEq] at ho
        subst ho
        exact ⟨min_le_left c 1, fun hc => ⟨le_min hc le_rfl, le_min hc le_rfl⟩⟩)
      (by decide)).2⟩

theorem resolve_minRev_eq_max_witness :
    resolve 0 [some exRepoLower] 1 5 = some (.ok [] 3 3) ∧
      ∃ c0 rs0, runPass 0 [some exRepoLower] 0 c0 1 = .ok rs0 3 3 ∧
        (3 : Int) = (passNexts [some exRepoLower] c0).foldl max 1 ∧ (1 : Int) ≤ 3 :=
  ⟨by decide, resolve_minRev_eq_max 0 [some exRepoLower] 1 5 [] 3 3 (by decide)⟩

theorem resume_inconsistency_no_export_witness :
    resolve exCfgResume5.resumeFrom [some exRepoLower] 1 (initialCutoff exCfgResume5) =
        some (.ok [0] 3 3) ∧
      (3 : Int) < exCfgResume5.resumeFrom ∧
      mainRun exCfgResume5 [some exRepoLower] 1 = some (.resumeError [0] 5 3) :=
  ⟨by decide, by decide,
    (resume_inconsistency_no_export exCfgResume5 [some exRepoLower] 1 [0] 3 3
      (by decide) (by decide)).1⟩

theorem export_failfast_finalize_exit_witness :
    mainRun exCfgFail [some exRepoGood] 1 =
        some (.finished [] false [(1, true), (2, true), (3, false)] [] [0] true) ∧
      (∀ (pre : List (Int × Bool)) (i : Int) (post : List (Int × Bool)),
        [((1 : Int), true), (2, true), (3, false)] = pre ++ (i, false) :: post →
          post = []) ∧
      ((true : Bool) = true ↔ ∃ p ∈ [((1 : Int), true), (2, true), (3, false)],
        p.2 = false) :=
  ⟨by decide,
    (export_failfast_finalize_exit exCfgFail [some exRepoGood] 1 [] false
      [(1, true), (2, true), (3, false)] [] [0] true (by decide)).1,
    (export_failfast_finalize_exit exCfgFail [some exRepoGood] 1 [] false
      [(1, true), (2, true), (3, false)] [] [0] true (by decide)).2.2.2.2.1⟩

theorem filter_export_exact_witness :
    resolve exCfgFilter.resumeFrom [some exRepoGood] 1 (initialCutoff exCfgFilter) =
        some (.ok [] 1 1) ∧
      ¬ (1 : Int) < exCfgFilter.resumeFrom ∧
      loadRevisionsFile exCfgFilter.revisionsFile ≠ [] ∧
      (∀ r : Int, exCfgFilter.exportOk r = true) ∧
      mainRun exCfgFilter [some exRepoGood] 1 =
        some (.finished [] false [(2, true), (4, true)] [1, 3, 5] [0] false) :=
  ⟨by decide, by decide, by decide, fun _ => rfl,
    (filter_export_exact exCfgFilter [some exRepoGood] 1 [] 1 1
      (by decide) (by decide) (by decide) (fun _ => rfl)).1⟩

theorem restoreLog_iff_witness :
    0 ∈ restoresOf (runPass 10 [some exRepoFour, some cexRepoB] 0 10 1) :=
  (restoreLog_iff 10 [some exRepoFour, some cexRepoB] 10 0).mpr
    ⟨4, 4, by decide, by decide, rfl⟩

theorem resume_point_overrides_minRev_witness :
    exCfgResume.resumeFrom ≠ 0 ∧
      resolve exCfgResume.resumeFrom [some exRepoNext3] 1 (initialCutoff exCfgResume) =
        some (.ok [] 3 7) ∧
      ¬ (7 : Int) < exCfgResume.resumeFrom ∧
      mainRun exCfgResume [some exRepoNext3] 1 =
        some (.finished [] true [(7, true), (8, true), (9, true)] [] [0] false) :=
  ⟨by decide, by decide, by decide,
    (resume_point_overrides_minRev exCfgResume [some exRepoNext3] 1 [] 3 7
      (by decide) (by decide) (by decide)).1⟩

theorem identityMap_line_spec_witness :
    parseIdentityLine (String.toList "x y") = specIdentityLine (String.toList "x y") :=
  identityMap_line_spec.1 (String.toList "x y")

theorem empty_filter_disables_filtering_witness :
    (∃ lines, exCfgBadLines.revisionsFile = some lines ∧
        ∀ l ∈ lines, batToInt (trim l) = none) ∧
      loadRevisionsFile exCfgBadLines.revisionsFile = [] ∧
      mainRun exCfgBadLines [some exRepoGood] 1 =
        some (.finished [] false
          [(1, true), (2, true), (3, true), (4, true), (5, true)] [] [0] false) :=
  ⟨⟨[String.toList "abc", String.toList ""], rfl, by decide⟩,
    (empty_filter_disables_filtering exCfgBadLines [some exRepoGood] 1 [] 1 1
      (by decide) (by decide)
      (Or.inr ⟨[String.toList "abc", String.toList ""], rfl, by decide⟩)
      (fun _ => rfl)).1,
    (empty_filter_disables_filtering exCfgBadLines [some exRepoGood] 1 [] 1 1
      (by decide) (by decide)
      (Or.inr ⟨[String.toList "abc", String.toList ""], rfl, by decide⟩)
      (fun _ => rfl)).2⟩

theorem no_finalize_on_resolution_abort_witness :
    mainRun exCfgFilter [none] 1 = some (.configFail []) ∧
      finalizedOf (.configFail []) = [] :=
  ⟨by decide,
    ((no_finalize_on_resolution_abort exCfgFilter [none] 1).1 [] (by decide)).1⟩

end Svn2Git
